import Mathlib

set_option autoImplicit false

/-!
Verification of the command alias and lazy version-injection layer of
mm-clikit (`src/mm_clikit/typer_plus.py`), shallowly embedded in Lean.

Python dictionaries are modelled as insertion-ordered association lists:
inserting an existing key replaces the value in place, inserting a new key
appends at the end, and lookup returns the first matching entry.
-/

namespace MmClikit

/-! ## Python dict model -/

def dictGet {β : Type} : List (String × β) → String → Option β
  | [], _ => none
  | (k, v) :: rest, key => if k = key then some v else dictGet rest key

def dictInsert {β : Type} : List (String × β) → String → β → List (String × β)
  | [], key, val => [(key, val)]
  | (k, v) :: rest, key, val =>
      if k = key then (k, val) :: rest else (k, v) :: dictInsert rest key val

def dictKeys {β : Type} (d : List (String × β)) : List String := d.map Prod.fst

@[simp] theorem dictKeys_nil {β : Type} : dictKeys ([] : List (String × β)) = [] := rfl

@[simp] theorem dictKeys_cons {β : Type} (p : String × β) (rest : List (String × β)) :
    dictKeys (p :: rest) = p.1 :: dictKeys rest := rfl

theorem dictGet_insert_self {β : Type} (d : List (String × β)) (k : String) (v : β) :
    dictGet (dictInsert d k v) k = some v := by
  induction d with
  | nil => simp [dictInsert, dictGet]
  | cons p rest ih =>
      obtain ⟨k0, v0⟩ := p
      by_cases h : k0 = k
      · simp [dictInsert, dictGet, h]
      · simp [dictInsert, dictGet, h, ih]

theorem dictGet_insert_ne {β : Type} (d : List (String × β)) (k k' : String) (v : β)
    (h : k ≠ k') : dictGet (dictInsert d k v) k' = dictGet d k' := by
  induction d with
  | nil => simp [dictInsert, dictGet, h, Ne.symm h]
  | cons p rest ih =>
      obtain ⟨k0, v0⟩ := p
      by_cases h0 : k0 = k
      · subst h0
        simp [dictInsert, dictGet, h, Ne.symm h]
      · by_cases h1 : k0 = k'
        · simp [dictInsert, dictGet, h0, h1, Ne.symm h]
        · simp [dictInsert, dictGet, h0, h1, ih]

theorem dictGet_eq_none_of_not_mem {β : Type} (d : List (String × β)) (k : String)
    (h : k ∉ dictKeys d) : dictGet d k = none := by
  induction d with
  | nil => simp [dictGet]
  | cons p rest ih =>
      obtain ⟨k0, v0⟩ := p
      simp at h
      have h1 : k0 ≠ k := fun he => h.1 he.symm
      simp [dictGet, h1, ih h.2]

theorem dictGet_isSome_of_mem {β : Type} (d : List (String × β)) (k : String)
    (h : k ∈ dictKeys d) : (dictGet d k).isSome := by
  induction d with
  | nil => simp at h
  | cons p rest ih =>
      obtain ⟨k0, v0⟩ := p
      by_cases h0 : k0 = k
      · simp [dictGet, h0]
      · simp at h
        rcases h with h | h
        · exact absurd h.symm h0
        · simp [dictGet, h0, ih h]

theorem mem_dictKeys_of_get_some {β : Type} (d : List (String × β)) (k : String) (v : β)
    (h : dictGet d k = some v) : k ∈ dictKeys d := by
  induction d with
  | nil => simp [dictGet] at h
  | cons p rest ih =>
      obtain ⟨k0, v0⟩ := p
      by_cases h0 : k0 = k
      · simp [h0]
      · simp [dictGet, h0] at h
        simp
        exact Or.inr (ih h)

theorem dictKeys_insert_mem {β : Type} (d : List (String × β)) (k : String) (v : β)
    (h : k ∈ dictKeys d) : dictKeys (dictInsert d k v) = dictKeys d := by
  induction d with
  | nil => simp at h
  | cons p rest ih =>
      obtain ⟨k0, v0⟩ := p
      by_cases h0 : k0 = k
      · simp [dictInsert, h0]
      · simp at h
        rcases h with h | h
        · exact absurd h.symm h0
        · simp [dictInsert, h0, ih h]

theorem dictKeys_insert_not_mem {β : Type} (d : List (String × β)) (k : String) (v : β)
    (h : k ∉ dictKeys d) : dictKeys (dictInsert d k v) = dictKeys d ++ [k] := by
  induction d with
  | nil => simp [dictInsert]
  | cons p rest ih =>
      obtain ⟨k0, v0⟩ := p
      simp at h
      have h1 : k0 ≠ k := fun he => h.1 he.symm
      simp [dictInsert, h1, ih h.2]

theorem mem_dictKeys_insert {β : Type} (d : List (String × β)) (k : String) (v : β) :
    k ∈ dictKeys (dictInsert d k v) := by
  by_cases h : k ∈ dictKeys d
  · rw [dictKeys_insert_mem d k v h]; exact h
  · rw [dictKeys_insert_not_mem d k v h]; simp

theorem mem_dictKeys_insert_of_mem {β : Type} (d : List (String × β)) (k x : String) (v : β)
    (h : x ∈ dictKeys d) : x ∈ dictKeys (dictInsert d k v) := by
  by_cases hk : k ∈ dictKeys d
  · rw [dictKeys_insert_mem d k v hk]; exact h
  · rw [dictKeys_insert_not_mem d k v hk]; simp [h]

theorem mem_dictKeys_insert_elim {β : Type} (d : List (String × β)) (k x : String) (v : β)
    (h : x ∈ dictKeys (dictInsert d k v)) : x ∈ dictKeys d ∨ x = k := by
  by_cases hk : k ∈ dictKeys d
  · rw [dictKeys_insert_mem d k v hk] at h; exact Or.inl h
  · rw [dictKeys_insert_not_mem d k v hk] at h
    simpa using h

theorem dictInsert_self {β : Type} (d : List (String × β)) (k : String) (v : β)
    (h : dictGet d k = some v) : dictInsert d k v = d := by
  induction d with
  | nil => simp [dictGet] at h
  | cons p rest ih =>
      obtain ⟨k0, v0⟩ := p
      by_cases h0 : k0 = k
      · simp [dictGet, h0] at h
        simp [dictInsert, h0, h]
      · simp [dictGet, h0] at h
        simp [dictInsert, h0, ih h]

theorem dictInsert_insert_same {β : Type} (d : List (String × β)) (k : String) (v w : β) :
    dictInsert (dictInsert d k v) k w = dictInsert d k w := by
  induction d with
  | nil => simp [dictInsert]
  | cons p rest ih =>
      obtain ⟨k0, v0⟩ := p
      by_cases h0 : k0 = k
      · simp [dictInsert, h0]
      · simp [dictInsert, h0, ih]

theorem dictInsert_comm {β : Type} (d : List (String × β)) (k m : String) (v w : β)
    (hne : k ≠ m) (hm : m ∈ dictKeys d) :
    dictInsert (dictInsert d k v) m w = dictInsert (dictInsert d m w) k v := by
  induction d with
  | nil => simp at hm
  | cons p rest ih =>
      obtain ⟨k0, v0⟩ := p
      by_cases hk : k0 = k
      · subst hk
        simp [dictInsert, hne, Ne.symm hne]
      · by_cases hm0 : k0 = m
        · subst hm0
          simp [dictInsert, hk, Ne.symm hne, hne]
        · simp at hm
          rcases hm with hm | hm
          · exact absurd hm.symm hm0
          · simp [dictInsert, hk, hm0, ih hm]

theorem dictGet_of_nodup_mem {β : Type} (d : List (String × β)) (k : String) (v : β)
    (hnd : (dictKeys d).Nodup) (hmem : (k, v) ∈ d) : dictGet d k = some v := by
  induction d with
  | nil => simp at hmem
  | cons p rest ih =>
      obtain ⟨k0, v0⟩ := p
      simp at hnd
      rcases List.mem_cons.mp hmem with h | h
      · rw [show k = k0 from (Prod.mk.injEq .. ▸ h : k = k0 ∧ v = v0).1,
            show v = v0 from (Prod.mk.injEq .. ▸ h : k = k0 ∧ v = v0).2]
        simp [dictGet]
      · have hk0 : k0 ≠ k := by
          intro he
          subst he
          exact hnd.1 (show k0 ∈ dictKeys rest from List.mem_map_of_mem Prod.fst h)
        simp [dictGet, hk0, ih hnd.2 h]

/-! ## AliasGroup (`typer_plus.AliasGroup`)

A click command, as far as this layer observes it: its stored name, an opaque
handler identity, the alias list carried as the `_typer_aliases` attribute on
the callback (empty when the attribute is absent), the hidden flag and the
short-help text. -/

structure Cmd where
  name : String
  handler : Nat
  aliases : List String
  hidden : Bool
  shortHelp : String
deriving DecidableEq, Repr

/-- State built by `AliasGroup.__init__`: the `commands` dict (canonical names
and alias keys, aliases sharing the command of their canonical counterpart),
the `_alias_to_cmd` dict and the `_cmd_aliases` dict. -/
structure AliasGroup where
  commands : List (String × Cmd)
  aliasToCmd : List (String × String)
  cmdAliases : List (String × List String)
deriving DecidableEq, Repr

/-- Inner loop of the command-level pass: for each alias,
`self._alias_to_cmd[alias] = cmd_name; self.commands[alias] = cmd`. -/
def registerAliases (cmdName : String) (c : Cmd) : List String → AliasGroup → AliasGroup
  | [], st => st
  | a :: rest, st =>
      registerAliases cmdName c rest
        { st with
          aliasToCmd := dictInsert st.aliasToCmd a cmdName
          commands := dictInsert st.commands a c }

/-- Command-level pass of `AliasGroup.__init__`: iterates over a snapshot of the
initial commands dict; commands without an alias attribute are skipped. -/
def cmdAliasPass : List (String × Cmd) → AliasGroup → AliasGroup
  | [], st => st
  | (n, c) :: rest, st =>
      if c.aliases = [] then cmdAliasPass rest st
      else
        cmdAliasPass rest
          (registerAliases n c c.aliases
            { st with cmdAliases := dictInsert st.cmdAliases n c.aliases })

/-- Inner loop of the group-level pass: for each alias,
`self._alias_to_cmd[alias] = cmd_name; self.commands[alias] = self.commands[cmd_name]`,
where the command object is looked up in the current dict. -/
def registerGroupAliases (cmdName : String) : List String → AliasGroup → AliasGroup
  | [], st => st
  | a :: rest, st =>
      registerGroupAliases cmdName rest
        (match dictGet st.commands cmdName with
         | some c =>
            { st with
              aliasToCmd := dictInsert st.aliasToCmd a cmdName
              commands := dictInsert st.commands a c }
         | none => st)

/-- Group-level pass of `AliasGroup.__init__`: entries of `_bound_group_aliases`
whose name is not a registered command are skipped. -/
def groupAliasPass : List (String × List String) → AliasGroup → AliasGroup
  | [], st => st
  | (n, as) :: rest, st =>
      if (dictGet st.commands n).isSome then
        groupAliasPass rest
          (registerGroupAliases n as { st with cmdAliases := dictInsert st.cmdAliases n as })
      else groupAliasPass rest st

/-- `AliasGroup.__init__`: starts from the commands dict handed over by the host
framework (canonical names only, in registration order) and the bound group
aliases, then runs the command-level and group-level passes. -/
def AliasGroup.init (cmds : List (String × Cmd)) (groupAliases : List (String × List String)) :
    AliasGroup :=
  groupAliasPass groupAliases
    (cmdAliasPass cmds { commands := cmds, aliasToCmd := [], cmdAliases := [] })

/-- Alias resolution step of `AliasGroup.get_command`:
`cmd_name = self._alias_to_cmd.get(cmd_name, cmd_name)`. -/
def AliasGroup.resolve (g : AliasGroup) (token : String) : String :=
  (dictGet g.aliasToCmd token).getD token

/-- `AliasGroup.get_command`: resolve the alias, then look the result up in the
commands dict (the lookup done by the host class). -/
def AliasGroup.getCommand (g : AliasGroup) (token : String) : Option Cmd :=
  dictGet g.commands (g.resolve token)

/-- `AliasGroup.list_commands`: canonical names only, aliases excluded. -/
def AliasGroup.listCommands (g : AliasGroup) : List String :=
  (g.commands.map Prod.fst).filter (fun n => (dictGet g.aliasToCmd n).isNone)

/-- All command-level alias tokens appearing in a command list. -/
def allCmdAliases (cmds : List (String × Cmd)) : List String :=
  (cmds.map (fun p => p.2.aliases)).flatten

/-- All group-level alias tokens appearing in a group-alias table. -/
def allGroupAliases (gA : List (String × List String)) : List String :=
  (gA.map Prod.snd).flatten

@[simp] theorem allCmdAliases_nil : allCmdAliases [] = [] := rfl

@[simp] theorem allCmdAliases_cons (p : String × Cmd) (rest : List (String × Cmd)) :
    allCmdAliases (p :: rest) = p.2.aliases ++ allCmdAliases rest := rfl

@[simp] theorem allGroupAliases_nil : allGroupAliases [] = [] := rfl

@[simp] theorem allGroupAliases_cons (p : String × List String)
    (rest : List (String × List String)) :
    allGroupAliases (p :: rest) = p.2 ++ allGroupAliases rest := rfl

theorem mem_allCmdAliases (a : String) (cmds : List (String × Cmd)) :
    a ∈ allCmdAliases cmds ↔ ∃ p ∈ cmds, a ∈ p.2.aliases := by
  simp only [allCmdAliases, List.mem_flatten, List.mem_map]
  constructor
  · rintro ⟨l, ⟨p, hp, rfl⟩, hal⟩
    exact ⟨p, hp, hal⟩
  · rintro ⟨p, hp, hal⟩
    exact ⟨p.2.aliases, ⟨p, hp, rfl⟩, hal⟩

theorem mem_allGroupAliases (a : String) (gA : List (String × List String)) :
    a ∈ allGroupAliases gA ↔ ∃ p ∈ gA, a ∈ p.2 := by
  simp only [allGroupAliases, List.mem_flatten, List.mem_map]
  constructor
  · rintro ⟨l, ⟨p, hp, rfl⟩, hal⟩
    exact ⟨p, hp, hal⟩
  · rintro ⟨p, hp, hal⟩
    exact ⟨p.2, ⟨p, hp, rfl⟩, hal⟩

theorem registerAliases_get_of_not_mem (n : String) (c : Cmd) (as : List String)
    (st : AliasGroup) (x : String) (hx : x ∉ as) :
    dictGet (registerAliases n c as st).aliasToCmd x = dictGet st.aliasToCmd x ∧
    dictGet (registerAliases n c as st).commands x = dictGet st.commands x := by
  induction as generalizing st with
  | nil => exact ⟨rfl, rfl⟩
  | cons a rest ih =>
      simp at hx
      have h := ih
        { st with
          aliasToCmd := dictInsert st.aliasToCmd a n
          commands := dictInsert st.commands a c } hx.2
      refine ⟨?_, ?_⟩
      · rw [show (registerAliases n c (a :: rest) st) = registerAliases n c rest
          { st with
            aliasToCmd := dictInsert st.aliasToCmd a n
            commands := dictInsert st.commands a c } from rfl,
          h.1]
        exact dictGet_insert_ne _ _ _ _ (Ne.symm hx.1)
      · rw [show (registerAliases n c (a :: rest) st) = registerAliases n c rest
          { st with
            aliasToCmd := dictInsert st.aliasToCmd a n
            commands := dictInsert st.commands a c } from rfl,
          h.2]
        exact dictGet_insert_ne _ _ _ _ (Ne.symm hx.1)

theorem registerAliases_get_of_mem (n : String) (c : Cmd) (as : List String)
    (st : AliasGroup) (a : String) (ha : a ∈ as) :
    dictGet (registerAliases n c as st).aliasToCmd a = some n ∧
    dictGet (registerAliases n c as st).commands a = some c := by
  induction as generalizing st with
  | nil => simp at ha
  | cons a0 rest ih =>
      by_cases hm : a ∈ rest
      · exact ih _ hm
      · have ha0 : a = a0 := by
          rcases List.mem_cons.mp ha with h | h
          · exact h
          · exact absurd h hm
        subst ha0
        have hpres := registerAliases_get_of_not_mem n c rest
          { st with
            aliasToCmd := dictInsert st.aliasToCmd a n
            commands := dictInsert st.commands a c } a hm
        refine ⟨?_, ?_⟩
        · rw [show (registerAliases n c (a :: rest) st) = registerAliases n c rest
            { st with
              aliasToCmd := dictInsert st.aliasToCmd a n
              commands := dictInsert st.commands a c } from rfl,
            hpres.1]
          exact dictGet_insert_self _ _ _
        · rw [show (registerAliases n c (a :: rest) st) = registerAliases n c rest
            { st with
              aliasToCmd := dictInsert st.aliasToCmd a n
              commands := dictInsert st.commands a c } from rfl,
            hpres.2]
          exact dictGet_insert_self _ _ _

theorem cmdAliasPass_get_of_not_mem (cmds : List (String × Cmd)) (st : AliasGroup)
    (x : String) (hx : x ∉ allCmdAliases cmds) :
    dictGet (cmdAliasPass cmds st).aliasToCmd x = dictGet st.aliasToCmd x ∧
    dictGet (cmdAliasPass cmds st).commands x = dictGet st.commands x := by
  induction cmds generalizing st with
  | nil => exact ⟨rfl, rfl⟩
  | cons p rest ih =>
      obtain ⟨n, c⟩ := p
      rw [allCmdAliases_cons] at hx
      simp at hx
      by_cases hempty : c.aliases = []
      · rw [show cmdAliasPass ((n, c) :: rest) st = cmdAliasPass rest st by
          simp only [cmdAliasPass]; rw [if_pos hempty]]
        exact ih st hx.2
      · rw [show cmdAliasPass ((n, c) :: rest) st = cmdAliasPass rest
          (registerAliases n c c.aliases
            { st with cmdAliases := dictInsert st.cmdAliases n c.aliases }) by
          simp only [cmdAliasPass]; rw [if_neg hempty]]
        have h1 := ih (registerAliases n c c.aliases
          { st with cmdAliases := dictInsert st.cmdAliases n c.aliases }) hx.2
        have h2 := registerAliases_get_of_not_mem n c c.aliases
          { st with cmdAliases := dictInsert st.cmdAliases n c.aliases } x hx.1
        exact ⟨by rw [h1.1, h2.1], by rw [h1.2, h2.2]⟩

theorem cmdAliasPass_establishes (cmds : List (String × Cmd)) (st : AliasGroup)
    (n : String) (c : Cmd) (a : String)
    (hnd : (cmds.map Prod.fst).Nodup)
    (hmem : (n, c) ∈ cmds) (ha : a ∈ c.aliases)
    (huniq : ∀ p ∈ cmds, p.1 ≠ n → a ∉ p.2.aliases) :
    dictGet (cmdAliasPass cmds st).aliasToCmd a = some n ∧
    dictGet (cmdAliasPass cmds st).commands a = some c := by
  induction cmds generalizing st with
  | nil => simp at hmem
  | cons p rest ih =>
      obtain ⟨m, c0⟩ := p
      simp only [List.map_cons, List.nodup_cons] at hnd
      rcases List.mem_cons.mp hmem with h | h
      · have hn1 : n = m := (Prod.mk.injEq .. ▸ h : n = m ∧ c = c0).1
        have hn2 : c = c0 := (Prod.mk.injEq .. ▸ h : n = m ∧ c = c0).2
        subst hn1
        subst hn2
        have hempty : c.aliases ≠ [] := by
          intro he
          rw [he] at ha
          simp at ha
        rw [show cmdAliasPass ((n, c) :: rest) st = cmdAliasPass rest
          (registerAliases n c c.aliases
            { st with cmdAliases := dictInsert st.cmdAliases n c.aliases }) by
          simp only [cmdAliasPass]; rw [if_neg hempty]]
        have hrest : a ∉ allCmdAliases rest := by
          intro hmem2
          obtain ⟨q, hq, haq⟩ := (mem_allCmdAliases a rest).mp hmem2
          have hqn : q.1 ≠ n := by
            intro he
            exact hnd.1 (he ▸ List.mem_map_of_mem Prod.fst hq)
          exact huniq q (List.mem_cons_of_mem _ hq) hqn haq
        have hpres := cmdAliasPass_get_of_not_mem rest
          (registerAliases n c c.aliases
            { st with cmdAliases := dictInsert st.cmdAliases n c.aliases }) a hrest
        have hreg := registerAliases_get_of_mem n c c.aliases
          { st with cmdAliases := dictInsert st.cmdAliases n c.aliases } a ha
        exact ⟨by rw [hpres.1, hreg.1], by rw [hpres.2, hreg.2]⟩
      · have hm_ne : m ≠ n := by
          intro he
          subst he
          exact hnd.1 (List.mem_map_of_mem Prod.fst h)
        have huniq' : ∀ p ∈ rest, p.1 ≠ n → a ∉ p.2.aliases := fun p hp =>
          huniq p (List.mem_cons_of_mem _ hp)
        by_cases hempty : c0.aliases = []
        · rw [show cmdAliasPass ((m, c0) :: rest) st = cmdAliasPass rest st by
            simp only [cmdAliasPass]; rw [if_pos hempty]]
          exact ih st hnd.2 h huniq'
        · rw [show cmdAliasPass ((m, c0) :: rest) st = cmdAliasPass rest
            (registerAliases m c0 c0.aliases
              { st with cmdAliases := dictInsert st.cmdAliases m c0.aliases }) by
            simp only [cmdAliasPass]; rw [if_neg hempty]]
          exact ih _ hnd.2 h huniq'

theorem registerGroupAliases_get_of_not_mem (n : String) (as : List String)
    (st : AliasGroup) (x : String) (hx : x ∉ as) :
    dictGet (registerGroupAliases n as st).aliasToCmd x = dictGet st.aliasToCmd x ∧
    dictGet (registerGroupAliases n as st).commands x = dictGet st.commands x := by
  induction as generalizing st with
  | nil => exact ⟨rfl, rfl⟩
  | cons a rest ih =>
      simp at hx
      cases hcn : dictGet st.commands n with
      | some c =>
          have h := ih
            { st with
              aliasToCmd := dictInsert st.aliasToCmd a n
              commands := dictInsert st.commands a c } hx.2
          refine ⟨?_, ?_⟩
          · rw [show registerGroupAliases n (a :: rest) st = registerGroupAliases n rest
              { st with
                aliasToCmd := dictInsert st.aliasToCmd a n
                commands := dictInsert st.commands a c } by
              simp only [registerGroupAliases, hcn], h.1]
            exact dictGet_insert_ne _ _ _ _ (Ne.symm hx.1)
          · rw [show registerGroupAliases n (a :: rest) st = registerGroupAliases n rest
              { st with
                aliasToCmd := dictInsert st.aliasToCmd a n
                commands := dictInsert st.commands a c } by
              simp only [registerGroupAliases, hcn], h.2]
            exact dictGet_insert_ne _ _ _ _ (Ne.symm hx.1)
      | none =>
          rw [show registerGroupAliases n (a :: rest) st = registerGroupAliases n rest st by
            simp only [registerGroupAliases, hcn]]
          exact ih st hx.2

theorem groupAliasPass_get_of_not_mem (gA : List (String × List String)) (st : AliasGroup)
    (x : String) (hx : x ∉ allGroupAliases gA) :
    dictGet (groupAliasPass gA st).aliasToCmd x = dictGet st.aliasToCmd x ∧
    dictGet (groupAliasPass gA st).commands x = dictGet st.commands x := by
  induction gA generalizing st with
  | nil => exact ⟨rfl, rfl⟩
  | cons p rest ih =>
      obtain ⟨n, as⟩ := p
      rw [allGroupAliases_cons] at hx
      simp at hx
      by_cases hsome : (dictGet st.commands n).isSome
      · rw [show groupAliasPass ((n, as) :: rest) st = groupAliasPass rest
          (registerGroupAliases n as { st with cmdAliases := dictInsert st.cmdAliases n as }) by
          simp only [groupAliasPass]; rw [if_pos hsome]]
        have h1 := ih (registerGroupAliases n as
          { st with cmdAliases := dictInsert st.cmdAliases n as }) hx.2
        have h2 := registerGroupAliases_get_of_not_mem n as
          { st with cmdAliases := dictInsert st.cmdAliases n as } x hx.1
        exact ⟨by rw [h1.1, h2.1], by rw [h1.2, h2.2]⟩
      · rw [show groupAliasPass ((n, as) :: rest) st = groupAliasPass rest st by
          simp only [groupAliasPass]; rw [if_neg hsome]]
        exact ih st hx.2

/-- C1: for a registered command with canonical name `n` and alias set, looking up
the canonical name or any alias through the alias-resolving command lookup of
`AliasGroup` yields the same command object, and a token that is neither a
canonical name nor an alias resolves to itself, leaving the not-found decision
to the caller. The hypotheses are the well-formedness invariants of the data
model: canonical names are unique, the alias `a` is registered for `n` only,
and `n` itself is not registered as an alias token. -/
theorem alias_lookup_consistent
    (cmds : List (String × Cmd)) (gA : List (String × List String))
    (n : String) (c : Cmd) (a t : String)
    (hnd : (cmds.map Prod.fst).Nodup)
    (hmem : (n, c) ∈ cmds)
    (ha : a ∈ c.aliases)
    (huniq : ∀ p ∈ cmds, p.1 ≠ n → a ∉ p.2.aliases)
    (hag : a ∉ allGroupAliases gA)
    (hn : n ∉ allCmdAliases cmds) (hng : n ∉ allGroupAliases gA)
    (_ht1 : t ∉ cmds.map Prod.fst) (ht2 : t ∉ allCmdAliases cmds)
    (ht3 : t ∉ allGroupAliases gA) :
    ((AliasGroup.init cmds gA).getCommand a = some c ∧
     (AliasGroup.init cmds gA).getCommand n = some c) ∧
    (AliasGroup.init cmds gA).resolve t = t := by
  set st0 : AliasGroup := { commands := cmds, aliasToCmd := [], cmdAliases := [] } with hst0
  have hinit : AliasGroup.init cmds gA = groupAliasPass gA (cmdAliasPass cmds st0) := rfl
  have hcmdn : dictGet (groupAliasPass gA (cmdAliasPass cmds st0)).commands n = some c := by
    have h1 := groupAliasPass_get_of_not_mem gA (cmdAliasPass cmds st0) n hng
    have h2 := cmdAliasPass_get_of_not_mem cmds st0 n hn
    rw [h1.2, h2.2]
    exact dictGet_of_nodup_mem cmds n c hnd hmem
  have ha2c : dictGet (groupAliasPass gA (cmdAliasPass cmds st0)).aliasToCmd a = some n := by
    have h1 := groupAliasPass_get_of_not_mem gA (cmdAliasPass cmds st0) a hag
    rw [h1.1]
    exact (cmdAliasPass_establishes cmds st0 n c a hnd hmem ha huniq).1
  have hn2c : dictGet (groupAliasPass gA (cmdAliasPass cmds st0)).aliasToCmd n = none := by
    have h1 := groupAliasPass_get_of_not_mem gA (cmdAliasPass cmds st0) n hng
    have h2 := cmdAliasPass_get_of_not_mem cmds st0 n hn
    rw [h1.1, h2.1]
    rfl
  have ht2c : dictGet (groupAliasPass gA (cmdAliasPass cmds st0)).aliasToCmd t = none := by
    have h1 := groupAliasPass_get_of_not_mem gA (cmdAliasPass cmds st0) t ht3
    have h2 := cmdAliasPass_get_of_not_mem cmds st0 t ht2
    rw [h1.1, h2.1]
    rfl
  refine ⟨⟨?_, ?_⟩, ?_⟩
  · rw [hinit]
    unfold AliasGroup.getCommand AliasGroup.resolve
    rw [ha2c]
    exact hcmdn
  · rw [hinit]
    unfold AliasGroup.getCommand AliasGroup.resolve
    rw [hn2c]
    exact hcmdn
  · rw [hinit]
    unfold AliasGroup.resolve
    rw [ht2c]
    rfl

def statusCmd : Cmd :=
  { name := "status", handler := 1, aliases := ["st", "s"], hidden := false, shortHelp := "" }

def infoCmd : Cmd :=
  { name := "info", handler := 2, aliases := [], hidden := false, shortHelp := "" }

def demoCmds : List (String × Cmd) := [("status", statusCmd), ("info", infoCmd)]

theorem alias_lookup_consistent_witness :
    ((AliasGroup.init demoCmds []).getCommand "st" = some statusCmd ∧
     (AliasGroup.init demoCmds []).getCommand "status" = some statusCmd) ∧
    (AliasGroup.init demoCmds []).resolve "nonexistent" = "nonexistent" :=
  alias_lookup_consistent demoCmds [] "status" statusCmd "st" "nonexistent"
    (by decide) (by decide) (by decide) (by decide) (by decide) (by decide)
    (by decide) (by decide) (by decide) (by decide)

/-- Key-tracking invariant of the init passes: the commands dict keeps the
canonical names as its leading segment, every key appended beyond them is
recorded in `_alias_to_cmd`, and `_alias_to_cmd` only ever holds alias tokens
drawn from `T`. -/
def keysInv (names T : List String) (st : AliasGroup) : Prop :=
  (∃ extra, dictKeys st.commands = names ++ extra ∧
    ∀ x ∈ extra, x ∈ dictKeys st.aliasToCmd) ∧
  (∀ x ∈ dictKeys st.aliasToCmd, x ∈ T)

theorem keysInv_insertAlias (names T : List String) (st : AliasGroup)
    (a n : String) (c : Cmd) (haT : a ∈ T) (h : keysInv names T st) :
    keysInv names T
      { st with
        aliasToCmd := dictInsert st.aliasToCmd a n
        commands := dictInsert st.commands a c } := by
  obtain ⟨⟨extra, hkeys, hextra⟩, hT⟩ := h
  constructor
  · by_cases hmem : a ∈ dictKeys st.commands
    · refine ⟨extra, ?_, ?_⟩
      · rw [show ({ st with
            aliasToCmd := dictInsert st.aliasToCmd a n
            commands := dictInsert st.commands a c } : AliasGroup).commands =
          dictInsert st.commands a c from rfl, dictKeys_insert_mem _ _ _ hmem]
        exact hkeys
      · intro x hx
        exact mem_dictKeys_insert_of_mem _ _ _ _ (hextra x hx)
    · refine ⟨extra ++ [a], ?_, ?_⟩
      · rw [show ({ st with
            aliasToCmd := dictInsert st.aliasToCmd a n
            commands := dictInsert st.commands a c } : AliasGroup).commands =
          dictInsert st.commands a c from rfl, dictKeys_insert_not_mem _ _ _ hmem, hkeys,
          List.append_assoc]
      · intro x hx
        rcases List.mem_append.mp hx with hx | hx
        · exact mem_dictKeys_insert_of_mem _ _ _ _ (hextra x hx)
        · rw [List.mem_singleton.mp hx]
          exact mem_dictKeys_insert _ _ _
  · intro x hx
    rcases mem_dictKeys_insert_elim _ _ _ _ hx with hx | hx
    · exact hT x hx
    · rw [hx]
      exact haT

theorem keysInv_registerAliases (names T : List String) (n : String) (c : Cmd)
    (as : List String) (st : AliasGroup) (hsub : ∀ a ∈ as, a ∈ T)
    (h : keysInv names T st) : keysInv names T (registerAliases n c as st) := by
  induction as generalizing st with
  | nil => exact h
  | cons a rest ih =>
      simp at hsub
      exact ih _ hsub.2 (keysInv_insertAlias names T st a n c hsub.1 h)

theorem keysInv_cmdAliases_update (names T : List String) (st : AliasGroup)
    (n : String) (as : List String) (h : keysInv names T st) :
    keysInv names T { st with cmdAliases := dictInsert st.cmdAliases n as } := h

theorem keysInv_cmdAliasPass (names T : List String) (cmds : List (String × Cmd))
    (st : AliasGroup) (hsub : ∀ p ∈ cmds, ∀ a ∈ p.2.aliases, a ∈ T)
    (h : keysInv names T st) : keysInv names T (cmdAliasPass cmds st) := by
  induction cmds generalizing st with
  | nil => exact h
  | cons p rest ih =>
      obtain ⟨n, c⟩ := p
      have hsub1 : ∀ a ∈ c.aliases, a ∈ T := fun a ha => hsub (n, c) (by simp) a ha
      have hsub2 : ∀ p ∈ rest, ∀ a ∈ p.2.aliases, a ∈ T := fun p hp =>
        hsub p (List.mem_cons_of_mem _ hp)
      by_cases hempty : c.aliases = []
      · rw [show cmdAliasPass ((n, c) :: rest) st = cmdAliasPass rest st by
          simp only [cmdAliasPass]; rw [if_pos hempty]]
        exact ih st hsub2 h
      · rw [show cmdAliasPass ((n, c) :: rest) st = cmdAliasPass rest
          (registerAliases n c c.aliases
            { st with cmdAliases := dictInsert st.cmdAliases n c.aliases }) by
          simp only [cmdAliasPass]; rw [if_neg hempty]]
        exact ih _ hsub2 (keysInv_registerAliases names T n c c.aliases _ hsub1
          (keysInv_cmdAliases_update names T st n c.aliases h))

theorem keysInv_registerGroupAliases (names T : List String) (n : String)
    (as : List String) (st : AliasGroup) (hsub : ∀ a ∈ as, a ∈ T)
    (h : keysInv names T st) : keysInv names T (registerGroupAliases n as st) := by
  induction as generalizing st with
  | nil => exact h
  | cons a rest ih =>
      simp at hsub
      cases hcn : dictGet st.commands n with
      | some c =>
          rw [show registerGroupAliases n (a :: rest) st = registerGroupAliases n rest
            { st with
              aliasToCmd := dictInsert st.aliasToCmd a n
              commands := dictInsert st.commands a c } by
            simp only [registerGroupAliases, hcn]]
          exact ih _ hsub.2 (keysInv_insertAlias names T st a n c hsub.1 h)
      | none =>
          rw [show registerGroupAliases n (a :: rest) st = registerGroupAliases n rest st by
            simp only [registerGroupAliases, hcn]]
          exact ih st hsub.2 h

theorem keysInv_groupAliasPass (names T : List String)
    (gA : List (String × List String)) (st : AliasGroup)
    (hsub : ∀ p ∈ gA, ∀ a ∈ p.2, a ∈ T)
    (h : keysInv names T st) : keysInv names T (groupAliasPass gA st) := by
  induction gA generalizing st with
  | nil => exact h
  | cons p rest ih =>
      obtain ⟨n, as⟩ := p
      have hsub1 : ∀ a ∈ as, a ∈ T := fun a ha => hsub (n, as) (by simp) a ha
      have hsub2 : ∀ p ∈ rest, ∀ a ∈ p.2, a ∈ T := fun p hp =>
        hsub p (List.mem_cons_of_mem _ hp)
      by_cases hsome : (dictGet st.commands n).isSome
      · rw [show groupAliasPass ((n, as) :: rest) st = groupAliasPass rest
          (registerGroupAliases n as { st with cmdAliases := dictInsert st.cmdAliases n as }) by
          simp only [groupAliasPass]; rw [if_pos hsome]]
        exact ih _ hsub2 (keysInv_registerGroupAliases names T n as _ hsub1 h)
      · rw [show groupAliasPass ((n, as) :: rest) st = groupAliasPass rest st by
          simp only [groupAliasPass]; rw [if_neg hsome]]
        exact ih st hsub2 h

/-- C3: enumerating the commands of an alias group yields exactly the canonical
names, in registration order, and never an alias token, whatever mixture of
command-level and group-level aliases was registered. The hypothesis is the
data-model invariant that no canonical name is also used as an alias token. -/
theorem enumeration_canonical_only
    (cmds : List (String × Cmd)) (gA : List (String × List String))
    (hdisj : ∀ x ∈ cmds.map Prod.fst,
      x ∉ allCmdAliases cmds ∧ x ∉ allGroupAliases gA) :
    (AliasGroup.init cmds gA).listCommands = cmds.map Prod.fst ∧
    ∀ x ∈ (AliasGroup.init cmds gA).listCommands,
      x ∉ allCmdAliases cmds ∧ x ∉ allGroupAliases gA := by
  set T : List String := allCmdAliases cmds ++ allGroupAliases gA with hT
  have hinv0 : keysInv (cmds.map Prod.fst) T
      { commands := cmds, aliasToCmd := [], cmdAliases := [] } := by
    refine ⟨⟨[], by simp [dictKeys], by simp⟩, by simp [dictKeys]⟩
  have hinv : keysInv (cmds.map Prod.fst) T (AliasGroup.init cmds gA) := by
    refine keysInv_groupAliasPass _ T gA _ ?_ (keysInv_cmdAliasPass _ T cmds _ ?_ hinv0)
    · intro p hp a ha
      rw [hT]
      exact List.mem_append.mpr (Or.inr ((mem_allGroupAliases a gA).mpr ⟨p, hp, ha⟩))
    · intro p hp a ha
      rw [hT]
      exact List.mem_append.mpr (Or.inl ((mem_allCmdAliases a cmds).mpr ⟨p, hp, ha⟩))
  obtain ⟨⟨extra, hkeys, hextra⟩, hTbound⟩ := hinv
  have hlist : (AliasGroup.init cmds gA).listCommands = cmds.map Prod.fst := by
    unfold AliasGroup.listCommands
    rw [show (AliasGroup.init cmds gA).commands.map Prod.fst =
      dictKeys (AliasGroup.init cmds gA).commands from rfl, hkeys, List.filter_append]
    have h1 : (cmds.map Prod.fst).filter
        (fun n => (dictGet (AliasGroup.init cmds gA).aliasToCmd n).isNone) =
        cmds.map Prod.fst := by
      apply List.filter_eq_self.mpr
      intro x hx
      have hxn : x ∉ dictKeys (AliasGroup.init cmds gA).aliasToCmd := by
        intro hmem
        have := hTbound x hmem
        rw [hT] at this
        rcases List.mem_append.mp this with h | h
        · exact (hdisj x hx).1 h
        · exact (hdisj x hx).2 h
      rw [dictGet_eq_none_of_not_mem _ _ hxn]
      rfl
    have h2 : extra.filter
        (fun n => (dictGet (AliasGroup.init cmds gA).aliasToCmd n).isNone) = [] := by
      apply List.filter_eq_nil_iff.mpr
      intro x hx
      have := dictGet_isSome_of_mem _ _ (hextra x hx)
      simp only [Option.isNone]
      intro hcontra
      cases hget : dictGet (AliasGroup.init cmds gA).aliasToCmd x with
      | some v => rw [hget] at hcontra; simp at hcontra
      | none => rw [hget] at this; simp at this
    rw [h1, h2, List.append_nil]
  refine ⟨hlist, ?_⟩
  intro x hx
  rw [hlist] at hx
  exact hdisj x hx

theorem enumeration_canonical_only_witness :
    (AliasGroup.init demoCmds []).listCommands = ["status", "info"] ∧
    ∀ x ∈ (AliasGroup.init demoCmds []).listCommands,
      x ∉ allCmdAliases demoCmds ∧ x ∉ allGroupAliases [] := by
  have h := enumeration_canonical_only demoCmds [] (by decide)
  exact ⟨h.1, h.2⟩

/-! ## Help rendering (`AliasGroup.format_help`, `AliasGroup.format_commands`) -/

/-- Alias display text: `", ".join(aliases)` wrapped in parentheses after the name. -/
def aliasDisplay (name : String) (aliases : List String) : String :=
  name ++ " (" ++ String.intercalate ", " aliases ++ ")"

/-- Name-patching loop of `format_help`: for each `(cmd_name, aliases)` entry of
`_cmd_aliases`, when the command exists and its stored name is truthy, remember
the original name and overwrite the stored name with the alias display form.
Returns the `originals` record and the patched commands dict. -/
def patchNames : List (String × List String) → List (String × Cmd) →
    List (String × String) × List (String × Cmd)
  | [], d => ([], d)
  | (n, as) :: rest, d =>
      match dictGet d n with
      | some c =>
          if c.name ≠ "" then
            let d' := dictInsert d n { c with name := aliasDisplay c.name as }
            let pr := patchNames rest d'
            ((n, c.name) :: pr.1, pr.2)
          else patchNames rest d
      | none => patchNames rest d

/-- Restore loop in the `finally` block of `format_help`: write each remembered
original name back onto the command stored under that key. -/
def restoreNames : List (String × String) → List (String × Cmd) → List (String × Cmd)
  | [], d => d
  | (n, o) :: rest, d =>
      match dictGet d n with
      | some c => restoreNames rest (dictInsert d n { c with name := o })
      | none => restoreNames rest d

/-- `format_help`, observed through its effect on the group state: names are
patched, the host renderer runs on the patched dict (reading, not writing),
and the `finally` block restores the remembered names. The rendering itself is
outside this state; `patchNames ... |>.2` is what the renderer displays. -/
def AliasGroup.formatHelp (g : AliasGroup) : AliasGroup :=
  let pr := patchNames g.cmdAliases g.commands
  { g with commands := restoreNames pr.1 pr.2 }

/-- `format_commands` (non-Rich fallback): one row per enumerable, non-hidden
command; a name with aliases is displayed as `name (a1, a2)`. -/
def AliasGroup.formatCommandsRows (g : AliasGroup) (width : Nat) : List (String × String) :=
  g.listCommands.filterMap fun cmdName =>
    match dictGet g.commands cmdName with
    | none => none
    | some c =>
        if c.hidden then none
        else
          some
            (match dictGet g.cmdAliases cmdName with
             | some as => aliasDisplay cmdName as
             | none => cmdName,
             c.shortHelp.take width)

theorem patchNames_fst_keys (ca : List (String × List String)) (d : List (String × Cmd))
    (x : String) (o : String) (hx : (x, o) ∈ (patchNames ca d).1) :
    x ∈ dictKeys ca := by
  induction ca generalizing d with
  | nil => simp [patchNames] at hx
  | cons p rest ih =>
      obtain ⟨n, as⟩ := p
      cases hcn : dictGet d n with
      | some c =>
          by_cases hname : c.name ≠ ""
          · rw [show patchNames ((n, as) :: rest) d =
              ((n, c.name) :: (patchNames rest
                (dictInsert d n { c with name := aliasDisplay c.name as })).1,
               (patchNames rest
                (dictInsert d n { c with name := aliasDisplay c.name as })).2) by
              simp only [patchNames, hcn]; rw [if_pos hname]] at hx
            rcases List.mem_cons.mp hx with h | h
            · simp [(Prod.mk.injEq .. ▸ h : x = n ∧ o = c.name).1]
            · exact List.mem_cons_of_mem _ (ih _ h)
          · rw [show patchNames ((n, as) :: rest) d = patchNames rest d by
              simp only [patchNames, hcn]; rw [if_neg hname]] at hx
            exact List.mem_cons_of_mem _ (ih _ hx)
      | none =>
          rw [show patchNames ((n, as) :: rest) d = patchNames rest d by
            simp only [patchNames, hcn]] at hx
          exact List.mem_cons_of_mem _ (ih _ hx)

theorem patchNames_get_outside (ca : List (String × List String)) (d : List (String × Cmd))
    (x : String) (hx : x ∉ dictKeys ca) :
    dictGet (patchNames ca d).2 x = dictGet d x := by
  induction ca generalizing d with
  | nil => rfl
  | cons p rest ih =>
      obtain ⟨n, as⟩ := p
      simp at hx
      cases hcn : dictGet d n with
      | some c =>
          by_cases hname : c.name ≠ ""
          · rw [show (patchNames ((n, as) :: rest) d).2 =
              (patchNames rest (dictInsert d n { c with name := aliasDisplay c.name as })).2 by
              simp only [patchNames, hcn]; rw [if_pos hname]]
            rw [ih _ hx.2]
            exact dictGet_insert_ne _ _ _ _ (Ne.symm hx.1)
          · rw [show (patchNames ((n, as) :: rest) d).2 = (patchNames rest d).2 by
              simp only [patchNames, hcn]; rw [if_neg hname]]
            exact ih _ hx.2
      | none =>
          rw [show (patchNames ((n, as) :: rest) d).2 = (patchNames rest d).2 by
            simp only [patchNames, hcn]]
          exact ih _ hx.2

theorem patchNames_insert_comm (ca : List (String × List String)) (d : List (String × Cmd))
    (k : String) (v : Cmd) (hk : k ∉ dictKeys ca) :
    patchNames ca (dictInsert d k v) =
      ((patchNames ca d).1, dictInsert (patchNames ca d).2 k v) := by
  induction ca generalizing d with
  | nil => rfl
  | cons p rest ih =>
      obtain ⟨n, as⟩ := p
      simp at hk
      have hne : n ≠ k := Ne.symm hk.1
      have hget : dictGet (dictInsert d k v) n = dictGet d n :=
        dictGet_insert_ne _ _ _ _ (Ne.symm hne)
      cases hcn : dictGet d n with
      | some c =>
          by_cases hname : c.name ≠ ""
          · rw [show patchNames ((n, as) :: rest) (dictInsert d k v) =
              ((n, c.name) :: (patchNames rest
                (dictInsert (dictInsert d k v) n { c with name := aliasDisplay c.name as })).1,
               (patchNames rest
                (dictInsert (dictInsert d k v) n
                  { c with name := aliasDisplay c.name as })).2) by
              simp only [patchNames, hget, hcn]; rw [if_pos hname]]
            rw [show patchNames ((n, as) :: rest) d =
              ((n, c.name) :: (patchNames rest
                (dictInsert d n { c with name := aliasDisplay c.name as })).1,
               (patchNames rest
                (dictInsert d n { c with name := aliasDisplay c.name as })).2) by
              simp only [patchNames, hcn]; rw [if_pos hname]]
            rw [dictInsert_comm d k n v _ hne.symm (mem_dictKeys_of_get_some _ _ _ hcn),
              ih _ hk.2]
          · rw [show patchNames ((n, as) :: rest) (dictInsert d k v) =
              patchNames rest (dictInsert d k v) by
              simp only [patchNames, hget, hcn]; rw [if_neg hname]]
            rw [show patchNames ((n, as) :: rest) d = patchNames rest d by
              simp only [patchNames, hcn]; rw [if_neg hname]]
            exact ih _ hk.2
      | none =>
          rw [show patchNames ((n, as) :: rest) (dictInsert d k v) =
            patchNames rest (dictInsert d k v) by
            simp only [patchNames, hget, hcn]]
          rw [show patchNames ((n, as) :: rest) d = patchNames rest d by
            simp only [patchNames, hcn]]
          exact ih _ hk.2

theorem restoreNames_insert_comm (orig : List (String × String)) (d : List (String × Cmd))
    (k : String) (v : Cmd) (hk : ∀ o, (k, o) ∉ orig) :
    restoreNames orig (dictInsert d k v) = dictInsert (restoreNames orig d) k v := by
  induction orig generalizing d with
  | nil => rfl
  | cons p rest ih =>
      obtain ⟨m, o⟩ := p
      have hne : m ≠ k := by
        intro he
        exact hk o (by rw [he]; simp)
      have hk' : ∀ o', (k, o') ∉ rest := fun o' ho' => hk o' (List.mem_cons_of_mem _ ho')
      have hget : dictGet (dictInsert d k v) m = dictGet d m :=
        dictGet_insert_ne _ _ _ _ (Ne.symm hne)
      cases hcm : dictGet d m with
      | some c =>
          rw [show restoreNames ((m, o) :: rest) (dictInsert d k v) =
            restoreNames rest (dictInsert (dictInsert d k v) m { c with name := o }) by
            simp only [restoreNames, hget, hcm]]
          rw [show restoreNames ((m, o) :: rest) d =
            restoreNames rest (dictInsert d m { c with name := o }) by
            simp only [restoreNames, hcm]]
          rw [dictInsert_comm d k m v _ hne.symm (mem_dictKeys_of_get_some _ _ _ hcm)]
          exact ih _ hk'
      | none =>
          rw [show restoreNames ((m, o) :: rest) (dictInsert d k v) =
            restoreNames rest (dictInsert d k v) by
            simp only [restoreNames, hget, hcm]]
          rw [show restoreNames ((m, o) :: rest) d = restoreNames rest d by
            simp only [restoreNames, hcm]]
          exact ih _ hk'

theorem restore_patchNames (ca : List (String × List String)) (d : List (String × Cmd))
    (hnd : (dictKeys ca).Nodup) :
    restoreNames (patchNames ca d).1 (patchNames ca d).2 = d := by
  induction ca generalizing d with
  | nil => rfl
  | cons p rest ih =>
      obtain ⟨n, as⟩ := p
      simp only [dictKeys_cons, List.nodup_cons] at hnd
      cases hcn : dictGet d n with
      | some c =>
          by_cases hname : c.name ≠ ""
          · have hpatch : patchNames ((n, as) :: rest) d =
                ((n, c.name) :: (patchNames rest
                  (dictInsert d n { c with name := aliasDisplay c.name as })).1,
                 (patchNames rest
                  (dictInsert d n { c with name := aliasDisplay c.name as })).2) := by
              simp only [patchNames, hcn]; rw [if_pos hname]
            rw [hpatch]
            rw [patchNames_insert_comm rest d n { c with name := aliasDisplay c.name as }
              hnd.1]
            have hgetn : dictGet
                (dictInsert (patchNames rest d).2 n { c with name := aliasDisplay c.name as })
                n = some { c with name := aliasDisplay c.name as } :=
              dictGet_insert_self _ _ _
            rw [show restoreNames
                ((n, c.name) :: (patchNames rest d).1)
                (dictInsert (patchNames rest d).2 n { c with name := aliasDisplay c.name as }) =
              restoreNames (patchNames rest d).1
                (dictInsert
                  (dictInsert (patchNames rest d).2 n { c with name := aliasDisplay c.name as })
                  n ({ { c with name := aliasDisplay c.name as } with name := c.name })) by
              simp only [restoreNames, hgetn]]
            have hcback : ({ { c with name := aliasDisplay c.name as } with
                name := c.name } : Cmd) = c := by
              cases c
              rfl
            rw [hcback, dictInsert_insert_same]
            have hknotin : ∀ o, (n, o) ∉ (patchNames rest d).1 := by
              intro o ho
              exact hnd.1 (patchNames_fst_keys rest d n o ho)
            rw [restoreNames_insert_comm _ _ _ _ hknotin, ih _ hnd.2,
              dictInsert_self _ _ _ hcn]
          · rw [show patchNames ((n, as) :: rest) d = patchNames rest d by
              simp only [patchNames, hcn]; rw [if_neg hname]]
            exact ih _ hnd.2
      | none =>
          rw [show patchNames ((n, as) :: rest) d = patchNames rest d by
            simp only [patchNames, hcn]]
          exact ih _ hnd.2

/-- C7: help rendering displays a canonical name with aliases as
`name (alias1, alias2)` and a name without aliases unmodified, and the renaming
performed by `format_help` is transient: once the render call returns, the
stored command names are exactly what they were before the call. -/
theorem help_alias_display_transient (g : AliasGroup) (w : Nat)
    (n : String) (as : List String) (c : Cmd) (m : String) (cm : Cmd)
    (hnd : (dictKeys g.cmdAliases).Nodup)
    (hlist : n ∈ g.listCommands)
    (hcmd : dictGet g.commands n = some c)
    (hhid : c.hidden = false)
    (hca : dictGet g.cmdAliases n = some as)
    (hmlist : m ∈ g.listCommands)
    (hmcmd : dictGet g.commands m = some cm)
    (hmhid : cm.hidden = false)
    (hmca : dictGet g.cmdAliases m = none) :
    ((aliasDisplay n as, c.shortHelp.take w) ∈ g.formatCommandsRows w ∧
     (m, cm.shortHelp.take w) ∈ g.formatCommandsRows w) ∧
    g.formatHelp = g := by
  refine ⟨⟨?_, ?_⟩, ?_⟩
  · simp only [AliasGroup.formatCommandsRows]
    apply List.mem_filterMap.mpr
    exact ⟨n, hlist, by simp [hcmd, hhid, hca]⟩
  · simp only [AliasGroup.formatCommandsRows]
    apply List.mem_filterMap.mpr
    exact ⟨m, hmlist, by simp [hmcmd, hmhid, hmca]⟩
  · show ({ g with
      commands := restoreNames (patchNames g.cmdAliases g.commands).1
        (patchNames g.cmdAliases g.commands).2 } : AliasGroup) = g
    rw [restore_patchNames g.cmdAliases g.commands hnd]

theorem help_alias_display_transient_witness :
    ((aliasDisplay "status" ["st", "s"], statusCmd.shortHelp.take 78) ∈
       (AliasGroup.init demoCmds []).formatCommandsRows 78 ∧
     ("info", infoCmd.shortHelp.take 78) ∈
       (AliasGroup.init demoCmds []).formatCommandsRows 78) ∧
    (AliasGroup.init demoCmds []).formatHelp = AliasGroup.init demoCmds [] :=
  help_alias_display_transient (AliasGroup.init demoCmds []) 78
    "status" ["st", "s"] statusCmd "info" infoCmd
    (by decide) (by decide) (by decide) (by decide) (by decide)
    (by decide) (by decide) (by decide) (by decide)

/-! ## TyperPlus (`typer_plus.TyperPlus`) -/

inductive ParamKind
  | positionalOnly
  | positionalOrKeyword
  | varPositional
  | keywordOnly
  | varKeyword
deriving DecidableEq, Repr

/-- One entry of an inspectable Python signature: name, kind, and whether a
default value is present. -/
structure PyParam where
  name : String
  kind : ParamKind
  hasDefault : Bool
deriving DecidableEq, Repr

/-- A Python callable as this layer observes it: its declared signature and an
opaque identity for the behavior executed when it is called. Wrapping with
`functools.wraps` delegates to the same body. -/
structure PyFunc where
  params : List PyParam
  body : Nat
deriving DecidableEq, Repr

/-- The `_version` keyword-only parameter appended by injection, carrying the
eager `typer.Option` default. -/
def versionParam : PyParam :=
  { name := "_version", kind := .keywordOnly, hasDefault := true }

/-- Wrapper construction shared by `_ensure_version_setup` and `callback`:
`wrapper.__signature__ = sig.replace(parameters=[*sig.parameters.values(), version_param])`.
The first component is the wrapper (same body, original parameters in order
followed by `_version`), the second the list of handler bodies executed while
building it — empty, because the construction is straight-line code that only
defines the closure. -/
def injectVersion (f : PyFunc) : PyFunc × List Nat :=
  ({ params := f.params ++ [versionParam], body := f.body }, [])

/-- `has_required_params` in `_ensure_version_setup`: a parameter with no
default whose kind is positional-or-keyword or keyword-only. -/
def hasRequiredParams (f : PyFunc) : Bool :=
  f.params.any fun p =>
    !p.hasDefault && (p.kind == .positionalOrKeyword || p.kind == .keywordOnly)

/-- A `typer.models.CommandInfo` as observed here. -/
structure CommandInfo where
  name : Option String
  callback : Option PyFunc
  noArgsIsHelp : Bool
deriving DecidableEq, Repr

/-- A mounted sub-application (`typer.models.TyperInfo` in `registered_groups`). -/
structure GroupInfo where
  name : Option String
deriving DecidableEq, Repr

/-- The router state of a `TyperPlus` instance: the configured package name, the
one-shot setup guard, the stored callback (`_registered_callback`), the command
and group registries of the host class, the group-alias table shared with the
bound `AliasGroup` subclass, and `self.info.no_args_is_help` (`none` models the
DefaultPlaceholder). -/
structure TyperPlusState where
  packageName : Option String
  versionSetupDone : Bool
  registeredCallback : Option PyFunc
  registeredCommands : List CommandInfo
  registeredGroups : List GroupInfo
  groupAliases : List (String × List String)
  infoNoArgsIsHelp : Option Bool
deriving DecidableEq, Repr

/-- `TyperPlus.__init__`: empty registries, setup not yet done, and
`no_args_is_help` defaulted to true. -/
def TyperPlusState.mk0 (packageName : Option String) : TyperPlusState :=
  { packageName := packageName
    versionSetupDone := false
    registeredCallback := none
    registeredCommands := []
    registeredGroups := []
    groupAliases := []
    infoNoArgsIsHelp := some true }

/-- `Typer.command` registration effect: append a `CommandInfo`. The alias list
of `TyperPlus.command` is carried as an attribute on the callback and consumed
by `AliasGroup.init`, modelled separately above. -/
def TyperPlusState.addCommand (st : TyperPlusState) (info : CommandInfo) : TyperPlusState :=
  { st with registeredCommands := st.registeredCommands ++ [info] }

/-- `TyperPlus.callback`: the parent decorator stores the function as the
registered callback; when a package name is configured and the function does
not already declare `_version`, the stored function is the injected wrapper. -/
def TyperPlusState.callbackOp (st : TyperPlusState) (f : PyFunc) : TyperPlusState :=
  match st.packageName with
  | none => { st with registeredCallback := some f }
  | some _ =>
      if f.params.any (fun p => p.name = "_version") then
        { st with registeredCallback := some f }
      else
        { st with registeredCallback := some (injectVersion f).1 }

/-- The `_default_callback` registered in multi-command mode: its sole parameter
is `_version` with the eager version option as default. -/
def defaultCallback : PyFunc :=
  { params := [{ name := "_version", kind := .positionalOrKeyword, hasDefault := true }]
    body := 0 }

/-- `TyperPlus._ensure_version_setup`: one-shot, lazy. Single-command shape
injects `--version` into the sole command callback (and propagates
`no_args_is_help` when the original signature has required parameters);
any other shape registers `_default_callback` through `callbackOp`; a
user-registered callback or a missing package name leaves the registries
alone. The second component lists the handler bodies executed during setup. -/
def TyperPlusState.ensureVersionSetup (st : TyperPlusState) : TyperPlusState × List Nat :=
  if st.versionSetupDone then (st, [])
  else
    match st.packageName with
    | none => (st, [])
    | some _ =>
        let st1 := { st with versionSetupDone := true }
        match st1.registeredCallback with
        | some _ => (st1, [])
        | none =>
            if st1.registeredCommands.length = 1 ∧ st1.registeredGroups = [] then
              match st1.registeredCommands with
              | [] => (st1, [])
              | cmdInfo :: rest =>
                  match cmdInfo.callback with
                  | none => (st1, [])
                  | some f =>
                      let wrapper := (injectVersion f).1
                      let cmd1 := { cmdInfo with callback := some wrapper }
                      let appNoArgs : Bool :=
                        match st1.infoNoArgsIsHelp with
                        | some b => b
                        | none => false
                      let cmd2 :=
                        if appNoArgs && hasRequiredParams f && !cmd1.noArgsIsHelp then
                          { cmd1 with noArgsIsHelp := true }
                        else cmd1
                      ({ st1 with registeredCommands := cmd2 :: rest }, (injectVersion f).2)
            else
              (st1.callbackOp defaultCallback, [])

inductive Mode
  | singleCommand
  | multiCommand
deriving DecidableEq, Repr

/-- Modelled from the host framework: `typer.main.get_command` builds a click
group when a callback is registered, sub-apps are mounted or more than one
command is registered; with exactly one command it builds that command
directly; with none it raises. The read of `registered_callback` goes through
the lazy property, so setup runs first. -/
def getCommandMode (st : TyperPlusState) : Option Mode :=
  if st.registeredCallback.isSome ∨ st.registeredGroups ≠ [] ∨
      st.registeredCommands.length > 1 then
    some .multiCommand
  else if st.registeredCommands.length = 1 then some .singleCommand
  else none

/-- Mode resolution as triggered by the first external access: the property read
runs the one-shot setup, then the host framework derives the mode from the
resulting registries. -/
def TyperPlusState.resolveMode (st : TyperPlusState) : TyperPlusState × Option Mode :=
  let st' := st.ensureVersionSetup.1
  (st', getCommandMode st')

/-- `TyperPlus.add_typer`: the parent registration runs first (appending the
group), only then are aliases validated; an alias list without a name raises
`ValueError` — the configuration error of the specification taxonomy. The
state returned alongside the error is the state the raising call leaves
behind. -/
inductive RegistrationError
  | valueError (msg : String)
deriving DecidableEq, Repr

def aliasWithoutNameMsg : String :=
  "Cannot set aliases without a name. Provide name= in add_typer()."

def TyperPlusState.addTyper (st : TyperPlusState) (name : Option String)
    (aliases : List String) : TyperPlusState × Option RegistrationError :=
  let st1 := { st with registeredGroups := st.registeredGroups ++ [{ name := name }] }
  if aliases.isEmpty then (st1, none)
  else
    match name with
    | none => (st1, some (.valueError aliasWithoutNameMsg))
    | some n => ({ st1 with groupAliases := dictInsert st1.groupAliases n aliases }, none)

/-! ## Version flag behavior (`create_version_callback`) -/

inductive PyResult
  | ok
  | exit (code : Nat)
deriving DecidableEq, Repr

/-- Modelled from the spec: `print_plain` (module `mm_clikit.output`, which is
not among the provided sources) writes its message as a plain line of output. -/
def print_plain (msg : String) (out : List String) : List String := out ++ [msg]

/-- The callback returned by `create_version_callback(package_name)`: when the
flag value is truthy it prints `"{package_name}: {version}"` and raises
`typer.Exit` (exit code 0); otherwise it returns silently. The lookup
`importlib.metadata.version` is an environment parameter. -/
def version_callback (packageName : String) (metadataVersion : String → String)
    (value : Bool) (out : List String) : PyResult × List String :=
  if value then
    (.exit 0, print_plain (packageName ++ ": " ++ metadataVersion packageName) out)
  else (.ok, out)

structure InvocationResult where
  exitCode : Nat
  printed : List String
  handlerRuns : Nat
deriving DecidableEq, Repr

/-- Modelled from the host framework: invoking a command whose parameter set
carries the eager version option runs the option callback at parse time — with
`True` when the flag was supplied and with the falsy default `None` otherwise —
and a `typer.Exit` raised there ends the invocation with that code before the
wrapped handler runs; when the callback returns, the handler runs once. -/
def runWithVersionOption (packageName : String) (metadataVersion : String → String)
    (flagSupplied : Bool) : InvocationResult :=
  match version_callback packageName metadataVersion flagSupplied [] with
  | (.exit code, out) => { exitCode := code, printed := out, handlerRuns := 0 }
  | (.ok, out) => { exitCode := 0, printed := out, handlerRuns := 1 }

/-- C4: with a package identifier configured, supplying the version flag prints
a line containing `"{package_name}: {version}"` and ends the invocation with
exit code 0 without running the wrapped handler; without the flag the handler
runs normally and nothing is printed by the version option. -/
theorem version_flag_behavior (packageName : String) (metadataVersion : String → String) :
    ((runWithVersionOption packageName metadataVersion true).exitCode = 0 ∧
     (packageName ++ ": " ++ metadataVersion packageName) ∈
       (runWithVersionOption packageName metadataVersion true).printed ∧
     (runWithVersionOption packageName metadataVersion true).handlerRuns = 0) ∧
    ((runWithVersionOption packageName metadataVersion false).handlerRuns = 1 ∧
     (runWithVersionOption packageName metadataVersion false).exitCode = 0 ∧
     (runWithVersionOption packageName metadataVersion false).printed = []) := by
  simp [runWithVersionOption, version_callback, print_plain]

/-! ## Claims on TyperPlus registration and mode resolution -/

theorem ensureVersionSetup_groups (st : TyperPlusState) :
    st.ensureVersionSetup.1.registeredGroups = st.registeredGroups := by
  unfold TyperPlusState.ensureVersionSetup TyperPlusState.callbackOp
  repeat' first
    | rfl
    | split
    | dsimp only

theorem ensureVersionSetup_callback_isSome (st : TyperPlusState)
    (h : st.registeredCallback.isSome) :
    st.ensureVersionSetup.1.registeredCallback = st.registeredCallback := by
  unfold TyperPlusState.ensureVersionSetup
  split
  · rfl
  · split
    · rfl
    · rename_i st' pkg hpkg
      cases hc : st.registeredCallback with
      | none => rw [hc] at h; simp at h
      | some f => simp only [hc]

theorem resolveMode_multi_of_groups (st : TyperPlusState)
    (hg : st.registeredGroups ≠ []) :
    st.resolveMode.2 = some Mode.multiCommand := by
  unfold TyperPlusState.resolveMode getCommandMode
  dsimp only
  rw [if_pos (Or.inr (Or.inl (by rw [ensureVersionSetup_groups]; exact hg)))]

theorem resolveMode_multi_of_callback (st : TyperPlusState)
    (hc : st.registeredCallback.isSome) :
    st.resolveMode.2 = some Mode.multiCommand := by
  unfold TyperPlusState.resolveMode getCommandMode
  dsimp only
  rw [if_pos (Or.inl (by rw [ensureVersionSetup_callback_isSome st hc]; exact hc))]

/-- C6: registering aliases for an unnamed sub-application always fails with the
configuration error of the specification taxonomy — realized in the code as
`ValueError("Cannot set aliases without a name. Provide name= in add_typer().")`
— whatever commands, groups or aliases are already registered. -/
theorem alias_unnamed_group_error (st : TyperPlusState) (aliases : List String)
    (h : aliases ≠ []) :
    (st.addTyper none aliases).2 =
      some (RegistrationError.valueError aliasWithoutNameMsg) := by
  unfold TyperPlusState.addTyper
  rw [if_neg (by simp [h])]

/-- C10: `add_typer` with aliases and no name is not atomic: the parent
registration has already appended the sub-application to the registered groups
when the name check raises, no alias mapping is recorded, and the mounted group
makes every subsequent mode resolution come out multi-command. -/
theorem add_typer_not_atomic (st : TyperPlusState) (aliases : List String)
    (h : aliases ≠ []) :
    (st.addTyper none aliases).1.registeredGroups =
      st.registeredGroups ++ [{ name := none }] ∧
    (st.addTyper none aliases).1.groupAliases = st.groupAliases ∧
    ((st.addTyper none aliases).2.isSome ∧
     (st.addTyper none aliases).1.resolveMode.2 = some Mode.multiCommand) := by
  have hstep : st.addTyper none aliases =
      ({ st with registeredGroups := st.registeredGroups ++ [{ name := none }] },
       some (RegistrationError.valueError aliasWithoutNameMsg)) := by
    unfold TyperPlusState.addTyper
    rw [if_neg (by simp [h])]
  rw [hstep]
  refine ⟨rfl, rfl, rfl, ?_⟩
  exact resolveMode_multi_of_groups _ (by simp)

def demoFunc : PyFunc :=
  { params := [{ name := "name", kind := .positionalOrKeyword, hasDefault := false }]
    body := 7 }

def demoCommandInfo : CommandInfo :=
  { name := some "hosts"
    callback := some demoFunc
    noArgsIsHelp := false }

def demoCommandInfo2 : CommandInfo :=
  { name := some "other"
    callback := some { params := [], body := 8 }
    noArgsIsHelp := false }

theorem alias_unnamed_group_error_witness :
    (((TyperPlusState.mk0 (some "demo")).addCommand demoCommandInfo).addTyper
      none ["x"]).2 =
      some (RegistrationError.valueError aliasWithoutNameMsg) :=
  alias_unnamed_group_error _ ["x"] (by decide)

theorem add_typer_not_atomic_witness :
    (((TyperPlusState.mk0 (some "demo")).addCommand demoCommandInfo).addTyper
        none ["x"]).1.registeredGroups =
      ((TyperPlusState.mk0 (some "demo")).addCommand
        demoCommandInfo).registeredGroups ++ [{ name := none }] ∧
    (((TyperPlusState.mk0 (some "demo")).addCommand demoCommandInfo).addTyper
        none ["x"]).1.groupAliases =
      ((TyperPlusState.mk0 (some "demo")).addCommand demoCommandInfo).groupAliases ∧
    ((((TyperPlusState.mk0 (some "demo")).addCommand demoCommandInfo).addTyper
        none ["x"]).2.isSome ∧
     (((TyperPlusState.mk0 (some "demo")).addCommand demoCommandInfo).addTyper
        none ["x"]).1.resolveMode.2 = some Mode.multiCommand) :=
  add_typer_not_atomic _ ["x"] (by decide)

theorem ensureVersionSetup_numCommands (st : TyperPlusState) :
    st.ensureVersionSetup.1.registeredCommands.length = st.registeredCommands.length := by
  unfold TyperPlusState.ensureVersionSetup TyperPlusState.callbackOp
  split
  · rfl
  split
  · rfl
  dsimp only
  split
  · rfl
  split
  · split
    · rfl
    · rename_i hcmds
      split
      · rfl
      dsimp only
      split
      · simp [hcmds]
      · simp [hcmds]
  · split
    · rfl
    split
    · rfl
    · rfl

theorem resolveMode_multi_of_manyCommands (st : TyperPlusState)
    (h : 2 ≤ st.registeredCommands.length) :
    st.resolveMode.2 = some Mode.multiCommand := by
  unfold TyperPlusState.resolveMode getCommandMode
  dsimp only
  rw [if_pos (Or.inr (Or.inr (by rw [ensureVersionSetup_numCommands]; omega)))]

theorem ensureVersionSetup_single_shape (st : TyperPlusState)
    (hc : st.registeredCallback = none)
    (hlen : st.registeredCommands.length = 1)
    (hg : st.registeredGroups = []) :
    st.ensureVersionSetup.1.registeredCallback = none ∧
    st.ensureVersionSetup.1.registeredCommands.length = 1 ∧
    st.ensureVersionSetup.1.registeredGroups = [] := by
  refine ⟨?_, by rw [ensureVersionSetup_numCommands]; exact hlen,
    by rw [ensureVersionSetup_groups]; exact hg⟩
  unfold TyperPlusState.ensureVersionSetup
  split
  · exact hc
  split
  · exact hc
  dsimp only
  split
  · rename_i hsome
    rw [hc] at hsome
    exact absurd hsome (by simp)
  split
  · split
    · exact hc
    split
    · exact hc
    · exact hc
  · rename_i hcond
    exact absurd ⟨hlen, hg⟩ hcond

/-- C2: the mode decision rule. A router whose registries hold exactly one
command, no sub-routers and no explicitly registered callback resolves to
single-command mode; a registered callback, two or more commands, or any
mounted sub-router makes resolution come out multi-command. -/
theorem mode_resolution_decision_rule (st : TyperPlusState) :
    (st.registeredCallback = none ∧ st.registeredCommands.length = 1 ∧
        st.registeredGroups = [] →
      st.resolveMode.2 = some Mode.singleCommand) ∧
    ((st.registeredCallback.isSome ∨ 2 ≤ st.registeredCommands.length ∨
        st.registeredGroups ≠ []) →
      st.resolveMode.2 = some Mode.multiCommand) := by
  constructor
  · rintro ⟨hc, hlen, hg⟩
    obtain ⟨h1, h2, h3⟩ := ensureVersionSetup_single_shape st hc hlen hg
    unfold TyperPlusState.resolveMode getCommandMode
    dsimp only
    have hneg : ¬(st.ensureVersionSetup.1.registeredCallback.isSome = true ∨
        st.ensureVersionSetup.1.registeredGroups ≠ [] ∨
        st.ensureVersionSetup.1.registeredCommands.length > 1) := by
      simp [h1, h2, h3]
    rw [if_neg hneg, if_pos h2]
  · rintro (hc | hlen | hg)
    · exact resolveMode_multi_of_callback st hc
    · exact resolveMode_multi_of_manyCommands st hlen
    · exact resolveMode_multi_of_groups st hg

theorem mode_resolution_decision_rule_witness :
    ((TyperPlusState.mk0 (some "demo")).addCommand demoCommandInfo).resolveMode.2 =
      some Mode.singleCommand ∧
    (((TyperPlusState.mk0 (some "demo")).addCommand demoCommandInfo).addCommand
        demoCommandInfo2).resolveMode.2 = some Mode.multiCommand :=
  ⟨(mode_resolution_decision_rule _).1 ⟨by decide, by decide, by decide⟩,
   (mode_resolution_decision_rule _).2 (Or.inr (Or.inl (by decide)))⟩

/-- C8: with a package name configured, registering a callback that itself
declares a `_version` parameter skips injection entirely: the callback is
stored exactly as the caller wrote it, and the router with a registered
callback resolves to multi-command mode. -/
theorem version_injection_skip_on_override (st : TyperPlusState) (f : PyFunc)
    (pkg : String)
    (hpkg : st.packageName = some pkg)
    (hv : f.params.any (fun p => p.name = "_version") = true) :
    st.callbackOp f = { st with registeredCallback := some f } ∧
    (st.callbackOp f).resolveMode.2 = some Mode.multiCommand := by
  have hstep : st.callbackOp f = { st with registeredCallback := some f } := by
    unfold TyperPlusState.callbackOp
    rw [hpkg]
    dsimp only
    rw [if_pos hv]
  refine ⟨hstep, ?_⟩
  rw [hstep]
  exact resolveMode_multi_of_callback _ (by simp)

def overrideCallback : PyFunc :=
  { params := [{ name := "_version", kind := .keywordOnly, hasDefault := true }]
    body := 9 }

theorem version_injection_skip_on_override_witness :
    ((TyperPlusState.mk0 (some "demo")).addCommand demoCommandInfo).callbackOp
        overrideCallback =
      { (TyperPlusState.mk0 (some "demo")).addCommand demoCommandInfo with
        registeredCallback := some overrideCallback } ∧
    (((TyperPlusState.mk0 (some "demo")).addCommand demoCommandInfo).callbackOp
        overrideCallback).resolveMode.2 = some Mode.multiCommand :=
  version_injection_skip_on_override _ overrideCallback "demo" (by decide) (by decide)

theorem ensureVersionSetup_single_inject (st : TyperPlusState) (ci : CommandInfo)
    (f : PyFunc) (pkg : String)
    (hfresh : st.versionSetupDone = false)
    (hpkg : st.packageName = some pkg)
    (hc : st.registeredCallback = none)
    (hcmds : st.registeredCommands = [ci])
    (hcb : ci.callback = some f)
    (hg : st.registeredGroups = []) :
    (st.ensureVersionSetup.1.registeredCommands.head?.bind CommandInfo.callback) =
      some (injectVersion f).1 ∧
    st.ensureVersionSetup.2 = [] := by
  unfold TyperPlusState.ensureVersionSetup
  simp only [hfresh, hpkg, hc, hcmds, hcb, hg]
  split
  · rename_i hff
    exact absurd hff (by simp)
  split
  · refine ⟨?_, rfl⟩
    simp only [List.head?_cons, Option.some_bind]
    split <;> rfl
  · rename_i hcond
    exact absurd (by simp) hcond

/-- C9: version-flag injection appends the flag parameter after the existing
parameters and never runs the handler. The wrapper built by `injectVersion`
keeps the original declared parameters in order, appends the single `_version`
parameter, delegates to the same body, and its construction executes no
handler body; both injection sites — the single-command setup and the callback
decorator — store a function with exactly that parameter list, and setup
itself executes no handler body. -/
theorem version_injection_appends_param (st : TyperPlusState) (ci : CommandInfo)
    (f g : PyFunc) (pkg : String)
    (hfresh : st.versionSetupDone = false)
    (hpkg : st.packageName = some pkg)
    (hc : st.registeredCallback = none)
    (hcmds : st.registeredCommands = [ci])
    (hcb : ci.callback = some f)
    (hg : st.registeredGroups = [])
    (hgnv : g.params.any (fun p => p.name = "_version") = false) :
    ((injectVersion f).1.params = f.params ++ [versionParam] ∧
     (injectVersion f).1.body = f.body ∧
     (injectVersion f).2 = []) ∧
    ((st.ensureVersionSetup.1.registeredCommands.head?.bind CommandInfo.callback).map
        PyFunc.params = some (f.params ++ [versionParam]) ∧
     st.ensureVersionSetup.2 = []) ∧
    ((st.callbackOp g).registeredCallback.map PyFunc.params =
        some (g.params ++ [versionParam]) ∧
     (st.callbackOp g).registeredCallback.map PyFunc.body = some g.body) := by
  obtain ⟨hinj, htrace⟩ :=
    ensureVersionSetup_single_inject st ci f pkg hfresh hpkg hc hcmds hcb hg
  refine ⟨⟨rfl, rfl, rfl⟩, ⟨by rw [hinj]; rfl, htrace⟩, ?_⟩
  have hstep : (st.callbackOp g).registeredCallback = some (injectVersion g).1 := by
    unfold TyperPlusState.callbackOp
    rw [hpkg]
    dsimp only
    rw [if_neg (by simp [hgnv])]
  rw [hstep]
  exact ⟨rfl, rfl⟩

def debugCallback : PyFunc :=
  { params := [{ name := "debug", kind := .positionalOrKeyword, hasDefault := true }]
    body := 10 }

theorem version_injection_appends_param_witness :
    ((injectVersion demoFunc).1.params = demoFunc.params ++ [versionParam] ∧
     (injectVersion demoFunc).1.body = demoFunc.body ∧
     (injectVersion demoFunc).2 = []) ∧
    ((((TyperPlusState.mk0 (some "demo")).addCommand
          demoCommandInfo).ensureVersionSetup.1.registeredCommands.head?.bind
        CommandInfo.callback).map PyFunc.params =
      some (demoFunc.params ++ [versionParam]) ∧
     ((TyperPlusState.mk0 (some "demo")).addCommand
        demoCommandInfo).ensureVersionSetup.2 = []) ∧
    ((((TyperPlusState.mk0 (some "demo")).addCommand demoCommandInfo).callbackOp
          debugCallback).registeredCallback.map PyFunc.params =
        some (debugCallback.params ++ [versionParam]) ∧
     (((TyperPlusState.mk0 (some "demo")).addCommand demoCommandInfo).callbackOp
          debugCallback).registeredCallback.map PyFunc.body =
        some debugCallback.body) :=
  version_injection_appends_param _ demoCommandInfo demoFunc debugCallback "demo"
    (by decide) (by decide) (by decide) (by decide) (by decide) (by decide) (by decide)

theorem ensureVersionSetup_of_done (st : TyperPlusState)
    (h : st.versionSetupDone = true) : st.ensureVersionSetup = (st, []) := by
  unfold TyperPlusState.ensureVersionSetup
  rw [h]
  simp

theorem ensureVersionSetup_of_noPkg (st : TyperPlusState)
    (hd : st.versionSetupDone = false) (hp : st.packageName = none) :
    st.ensureVersionSetup = (st, []) := by
  unfold TyperPlusState.ensureVersionSetup
  rw [hd, hp]
  simp

theorem ensureVersionSetup_sets_done (st : TyperPlusState) (pkg : String)
    (hfresh : st.versionSetupDone = false) (hpkg : st.packageName = some pkg) :
    st.ensureVersionSetup.1.versionSetupDone = true := by
  unfold TyperPlusState.ensureVersionSetup TyperPlusState.callbackOp
  simp only [hfresh, hpkg]
  split
  · rename_i hff
    exact absurd hff (by simp)
  repeat' first
    | rfl
    | split

/-- C5 (amended): the one-shot version setup is idempotent — running it on an
already-resolved router changes nothing — and resolving a second time without
intervening registrations yields the same mode as the first resolution. (The
mode itself is re-derived from the current registries on each resolution, so a
registration performed after the first resolution can still change it; see the
recorded counterexample.) -/
theorem resolution_idempotent (st : TyperPlusState) :
    st.ensureVersionSetup.1.ensureVersionSetup.1 = st.ensureVersionSetup.1 ∧
    st.ensureVersionSetup.1.resolveMode.2 = st.resolveMode.2 := by
  have h1 : st.ensureVersionSetup.1.ensureVersionSetup.1 = st.ensureVersionSetup.1 := by
    cases hdone : st.versionSetupDone with
    | true =>
        have h := ensureVersionSetup_of_done st hdone
        rw [h]
        dsimp only
        rw [h]
    | false =>
        cases hpkg : st.packageName with
        | none =>
            have h := ensureVersionSetup_of_noPkg st hdone hpkg
            rw [h]
            dsimp only
            rw [h]
        | some pkg =>
            have hd := ensureVersionSetup_sets_done st pkg hdone hpkg
            rw [ensureVersionSetup_of_done _ hd]
  refine ⟨h1, ?_⟩
  unfold TyperPlusState.resolveMode
  dsimp only
  rw [h1]

/-- C5, counterexample to the claim as stated: a router holding one command
resolves to single-command mode, and a registration performed after that first
resolution flips a later resolution to multi-command mode — post-resolution
registrations do affect the resolved mode. -/
theorem mode_flip_counterexample :
    ((TyperPlusState.mk0 (some "demo")).addCommand demoCommandInfo).resolveMode.2 =
      some Mode.singleCommand ∧
    ((((TyperPlusState.mk0 (some "demo")).addCommand
        demoCommandInfo).resolveMode.1.addCommand demoCommandInfo2).resolveMode.2 =
      some Mode.multiCommand) := by
  decide

end MmClikit
